import Mathlib

/-!
# Verification of the extraction core of `extract_api_spec.py`

A shallow embedding of the extraction core of the repository's single source
file `src/extract_api_spec.py` (endpoint discovery, windowed balanced-brace
block extraction, request/response role classification, JSON normalization,
and record assembly), together with theorems settling the specification
claims about it.

Document text is modelled as `List Char`.  Python's `re`-based scan in
`find_urls`, the character loops of `json_blocks_near`, the keyword
heuristics of `pick_io`, and the per-document loop of `main` are translated
function by function.  The `json` standard-library calls
`json.loads` / `json.dumps(..., ensure_ascii=False, indent=2)` used by
`pick_io.norm` are embedded as an executable JSON parser and printer over a
JSON value type with integer numerals (floating-point literals, `NaN` and
`Infinity` are outside the model: on those inputs the embedded parser fails
where CPython would build a `float`; all other behaviour, including
whitespace, escape sequences, duplicate-key resolution and the two-space
indented serialization, follows the CPython `json` module).
-/

/-- Coerce a Lean string literal to the `List Char` document model. -/
def strL (s : String) : List Char := s.data

/-- Python regex `\s` / `str.strip` whitespace (ASCII part). -/
def isSpc (c : Char) : Bool :=
  c = ' ' || c = '\t' || c = '\n' || c = '\r' || c = '\x0b' || c = '\x0c'

/-- Python `str.strip()` on the ASCII-whitespace model. -/
def stripWs (l : List Char) : List Char :=
  ((l.dropWhile isSpc).reverse.dropWhile isSpc).reverse

/-- Test `begWith needle hay`: `hay` starts with `needle`. -/
def begWith : List Char → List Char → Bool
  | [], _ => true
  | _ :: _, [] => false
  | a :: as, b :: bs => a = b && begWith as bs

/-- Substring containment, as Python's `in` on strings. -/
def hasSubstr (needle : List Char) : List Char → Bool
  | [] => needle.isEmpty
  | c :: t => begWith needle (c :: t) || hasSubstr needle t

/-- Index of the first occurrence of `needle`, as Python's
`re.search(re.escape(needle), hay)` start position (`none` when absent). -/
def findSubIdx (needle : List Char) : List Char → Option Nat
  | [] => if needle.isEmpty then some 0 else none
  | c :: t =>
    if begWith needle (c :: t) then some 0
    else (findSubIdx needle t).map (· + 1)

/-! ## Endpoint discovery (`find_urls`, source lines 43-51)

`re.finditer(r"POST\s+(/\S+)", text)` scans left to right; a match is the
literal `POST`, at least one whitespace character, then a `/` followed by a
maximal nonempty run of non-whitespace characters (the captured path). -/

/-- Attempt the regex `POST\s+(/\S+)` anchored at the head of the input;
on success return the captured path and the remainder after the match. -/
def matchAt : List Char → Option (List Char × List Char)
  | 'P' :: 'O' :: 'S' :: 'T' :: c :: t =>
    if isSpc c then
      match (c :: t).dropWhile isSpc with
      | '/' :: u =>
        let p := u.takeWhile (fun d => !(isSpc d))
        if p.isEmpty then none
        else some ('/' :: p, u.dropWhile (fun d => !(isSpc d)))
      | _ => none
    else none
  | _ => none

/-- One step of the `finditer` scan: try a match at every position, left to
right, resuming after the end of each match.  `fuel` bounds the recursion;
`rawMatches` supplies enough for the whole text. -/
def rawAux : Nat → List Char → List (List Char)
  | 0, _ => []
  | _ + 1, [] => []
  | fuel + 1, c :: t =>
    match matchAt (c :: t) with
    | some (u, rest) => u :: rawAux fuel rest
    | none => rawAux fuel t

/-- All captured paths of `re.finditer(r"POST\s+(/\S+)", text)` in order. -/
def rawMatches (text : List Char) : List (List Char) :=
  rawAux (text.length + 1) text

/-- The dedup loop of `find_urls`: `seen` is the set of already-emitted
paths (source lines 45-50). -/
def dedupSeen : List (List Char) → List (List Char) → List (List Char)
  | [], _ => []
  | u :: rest, seen =>
    if u ∈ seen then dedupSeen rest seen
    else u :: dedupSeen rest (u :: seen)

/-- Model of `find_urls` (source lines 43-51): all `POST /...` paths, deduplicated
preserving first-occurrence order. -/
def find_urls (text : List Char) : List (List Char) :=
  dedupSeen (rawMatches text) []

/-- Specification-side first-occurrence deduplication: keep each element the
first time it appears, drop every later repetition. -/
def specDedup (l : List (List Char)) : List (List Char) :=
  l.foldl (fun acc x => if x ∈ acc then acc else acc ++ [x]) []

/-! ## Windowed block extraction (`json_blocks_near`, source lines 55-77) -/

/-- Scan window radius (source default `radius=30000`). -/
def radiusC : Nat := 30000

/-- Maximum number of blocks per window (source default `max_blocks=12`). -/
def maxBlocksC : Nat := 12

/-- Minimum trimmed length a candidate must strictly exceed
(source line 71, `len(raw) > 50`). -/
def minLenC : Nat := 50

/-- Skip to the next `{` (source `span.find("{", i)`). -/
def dropToBrace (l : List Char) : List Char :=
  l.dropWhile (fun c => c ≠ '\x7b')

/-- Balanced-brace scan (source lines 63-74): `d` is the current depth,
positive, the opening brace having already been consumed.  Returns the
characters up to and including the matching close brace, and the rest;
`none` when the depth never returns to zero (unterminated block). -/
def balAux : Nat → List Char → Option (List Char × List Char)
  | _, [] => none
  | d, c :: t =>
    if c = '\x7b' then (balAux (d + 1) t).map (fun p => (c :: p.1, p.2))
    else if c = '\x7d' then
      if d = 1 then some ([c], t)
      else (balAux (d - 1) t).map (fun p => (c :: p.1, p.2))
    else (balAux d t).map (fun p => (c :: p.1, p.2))

/-- Keep predicate of the extractor (source line 71):
trimmed length strictly greater than `minLenC`. -/
def keepPred (b : List Char) : Bool := decide (minLenC < b.length)

/-- The `while len(out) < max_blocks` loop of `json_blocks_near`:
`cap` is the remaining capacity, `fuel` bounds the recursion
(`json_blocks_near` supplies enough for its span). -/
def blocksAux : Nat → Nat → List Char → List (List Char)
  | 0, _, _ => []
  | _ + 1, 0, _ => []
  | fuel + 1, cap + 1, rest =>
    match dropToBrace rest with
    | [] => []
    | c :: t =>
      match balAux 1 t with
      | none => []
      | some (body, after) =>
        let raw := stripWs (c :: body)
        if keepPred raw then raw :: blocksAux fuel cap after
        else blocksAux fuel (cap + 1) after

/-- The same scan with no capacity cap and no minimum-length filter: every
balanced-brace span the extractor's loop encounters, in order. -/
def spansAux : Nat → List Char → List (List Char)
  | 0, _ => []
  | fuel + 1, rest =>
    match dropToBrace rest with
    | [] => []
    | c :: t =>
      match balAux 1 t with
      | none => []
      | some (body, after) => stripWs (c :: body) :: spansAux fuel after

/-- Window of `json_blocks_near` (source line 57-58):
`span = text[max(0, center-radius) : min(len(text), center+radius)]`. -/
def spanOf (text : List Char) (center : Nat) : List Char :=
  (text.take (min text.length (center + radiusC))).drop (center - radiusC)

/-- Model of `json_blocks_near` (source lines 55-77). -/
def json_blocks_near (text : List Char) (center : Nat) : List (List Char) :=
  blocksAux ((spanOf text center).length + 1) maxBlocksC (spanOf text center)

/-! ## JSON normalizer (`pick_io.norm`, source lines 98-100)

`norm(s)` is `json.dumps(json.loads(s), ensure_ascii=False, indent=2)` with
the original text returned unchanged on any parse failure.  The grammar of
`json.loads` (strict mode) and the serialization of `json.dumps` with
two-space indentation are embedded below, restricted to integer numerals. -/

/-- JSON values (CPython `json` model with integer numerals). -/
inductive J where
  | jnull : J
  | jbool : Bool → J
  | jint : Int → J
  | jstr : List Char → J
  | jarr : List J → J
  | jobj : List (List Char × J) → J

instance : Inhabited J := ⟨J.jnull⟩

/-- JSON whitespace skipped by the CPython decoder (`' \t\n\r'`). -/
def isWsC (c : Char) : Bool := c = ' ' || c = '\t' || c = '\n' || c = '\r'

/-- Skip decoder whitespace. -/
def skipWs (l : List Char) : List Char := l.dropWhile isWsC

/-- Decimal digit character of `n < 10`. -/
def digitChar (n : Nat) : Char := Char.ofNat (48 + n)

/-- Decimal digit test. -/
def isDigitC (c : Char) : Bool := 48 ≤ c.toNat && c.toNat ≤ 57

/-- Value of a decimal digit character. -/
def digitVal (c : Char) : Nat := c.toNat - 48

/-- Decimal digits of `n`, most significant first (Python `repr` of a
nonnegative `int`). -/
def natDigits (n : Nat) : List Char :=
  if _h : n < 10 then [digitChar n]
  else natDigits (n / 10) ++ [digitChar (n % 10)]
termination_by n
decreasing_by exact Nat.div_lt_self (by omega) (by omega)

/-- Consume a maximal run of digits, extending accumulator `acc`. -/
def parseDigitsAcc : Nat → List Char → Nat × List Char
  | acc, [] => (acc, [])
  | acc, c :: t =>
    if isDigitC c then parseDigitsAcc (acc * 10 + digitVal c) t else (acc, c :: t)

/-- Unsigned integer token of the JSON number grammar `0|[1-9][0-9]*`. -/
def parseUInt : List Char → Option (Nat × List Char)
  | [] => none
  | c :: t =>
    if c = '0' then some (0, t)
    else if isDigitC c then some (parseDigitsAcc (digitVal c) t)
    else none

/-- Signed integer token (`-?(0|[1-9][0-9]*)`). -/
def parseIntTok : List Char → Option (Int × List Char)
  | '-' :: t => (parseUInt t).map (fun p => (-(p.1 : Int), p.2))
  | s => (parseUInt s).map (fun p => ((p.1 : Int), p.2))

/-- Characters produced by the short JSON escapes. -/
def unescC (c : Char) : Option Char :=
  if c = '"' then some '"'
  else if c = '\\' then some '\\'
  else if c = '/' then some '/'
  else if c = 'b' then some '\x08'
  else if c = 'f' then some '\x0c'
  else if c = 'n' then some '\n'
  else if c = 'r' then some '\r'
  else if c = 't' then some '\t'
  else none

/-- Value of a hexadecimal digit character. -/
def hexVal (c : Char) : Option Nat :=
  if 48 ≤ c.toNat ∧ c.toNat ≤ 57 then some (c.toNat - 48)
  else if 97 ≤ c.toNat ∧ c.toNat ≤ 102 then some (c.toNat - 87)
  else if 65 ≤ c.toNat ∧ c.toNat ≤ 70 then some (c.toNat - 55)
  else none

/-- String body after the opening quote: strict-mode decoding (raw control
characters rejected, escapes decoded; `\uXXXX` only for non-surrogate
scalars, the surrogate-pair combination of CPython being outside the
model).  Returns the decoded characters and the rest after the close
quote. -/
def parseStringBody : List Char → Option (List Char × List Char)
  | [] => none
  | '"' :: t => some ([], t)
  | '\\' :: 'u' :: h1 :: h2 :: h3 :: h4 :: t =>
    (match hexVal h1, hexVal h2, hexVal h3, hexVal h4 with
     | some a, some b, some c, some d =>
       let code := ((a * 16 + b) * 16 + c) * 16 + d
       if code < 55296 ∨ 57344 ≤ code then
         (parseStringBody t).map (fun p => (Char.ofNat code :: p.1, p.2))
       else none
     | _, _, _, _ => none)
  | '\\' :: c :: t =>
    (match unescC c with
     | some ch => (parseStringBody t).map (fun p => (ch :: p.1, p.2))
     | none => none)
  | c :: t =>
    if c.toNat < 32 then none
    else (parseStringBody t).map (fun p => (c :: p.1, p.2))

/-- Insertion of a parsed object member into the accumulated members:
CPython's `dict` assignment — an existing key keeps its position and takes
the new value, a new key is appended. -/
def insField (k : List Char) (v : J) : List (List Char × J) → List (List Char × J)
  | [] => [(k, v)]
  | (k', v') :: rest =>
    if k = k' then (k', v) :: rest else (k', v') :: insField k v rest

mutual

/-- The recursive-descent JSON value parser of `json.loads` (strict mode),
restricted to integer numerals.  `fuel` bounds nesting; every unit of fuel
spent corresponds to at least one consumed character, so the
`length + 1` budget supplied by `parse` never runs out. -/
def parseVal : Nat → List Char → Option (J × List Char)
  | 0, _ => none
  | fuel + 1, s =>
    match skipWs s with
    | 'n' :: 'u' :: 'l' :: 'l' :: t => some (.jnull, t)
    | 't' :: 'r' :: 'u' :: 'e' :: t => some (.jbool true, t)
    | 'f' :: 'a' :: 'l' :: 's' :: 'e' :: t => some (.jbool false, t)
    | '"' :: t => (parseStringBody t).map (fun p => (.jstr p.1, p.2))
    | '[' :: t =>
      let t₁ := skipWs t
      if t₁.head? = some ']' then some (.jarr [], t₁.tail)
      else
        (parseVal fuel t₁).bind (fun p =>
          (parseElemsRest fuel p.2).map (fun q => (.jarr (p.1 :: q.1), q.2)))
    | '\x7b' :: t =>
      let t₁ := skipWs t
      if t₁.head? = some '\x7d' then some (.jobj [], t₁.tail)
      else (parseOneField fuel [] t₁).map (fun q => (.jobj q.1, q.2))
    | s₁ => (parseIntTok s₁).map (fun p => (.jint p.1, p.2))

/-- After an array element: expect `]` or `,` followed by further
elements. -/
def parseElemsRest : Nat → List Char → Option (List J × List Char)
  | 0, _ => none
  | fuel + 1, s =>
    let t₁ := skipWs s
    if t₁.head? = some ']' then some ([], t₁.tail)
    else if t₁.head? = some ',' then
      (parseVal fuel t₁.tail).bind (fun p =>
        (parseElemsRest fuel p.2).map (fun q => (p.1 :: q.1, q.2)))
    else none

/-- One object member starting at its key quote, then the remaining
members; `acc` holds the members parsed so far. -/
def parseOneField : Nat → List (List Char × J) → List Char →
    Option (List (List Char × J) × List Char)
  | 0, _, _ => none
  | fuel + 1, acc, s =>
    if s.head? = some '"' then
      (parseStringBody s.tail).bind (fun kp =>
        let r₁ := skipWs kp.2
        if r₁.head? = some ':' then
          (parseVal fuel r₁.tail).bind (fun vp =>
            parseFieldsRest fuel (insField kp.1 vp.1 acc) vp.2)
        else none)
    else none

/-- After an object member: expect close brace or `,` followed by further
members. -/
def parseFieldsRest : Nat → List (List Char × J) → List Char →
    Option (List (List Char × J) × List Char)
  | 0, _, _ => none
  | fuel + 1, acc, s =>
    let t₁ := skipWs s
    if t₁.head? = some '\x7d' then some (acc, t₁.tail)
    else if t₁.head? = some ',' then parseOneField fuel acc (skipWs t₁.tail)
    else none

end

/-- Model of `json.loads`: a single value, only whitespace allowed after it. -/
def parse (t : List Char) : Option J :=
  match parseVal (t.length + 1) t with
  | some p => if (skipWs p.2).isEmpty then some p.1 else none
  | none => none

/-- Hexadecimal digit character (lowercase, as CPython's `\uXXXX`). -/
def hexDigitC (n : Nat) : Char :=
  if n < 10 then digitChar n else Char.ofNat (87 + n)

/-- Escaping of one character by `json.dumps(..., ensure_ascii=False)`:
quote, backslash and control characters only. -/
def escC (c : Char) : List Char :=
  if c = '"' then ['\\', '"']
  else if c = '\\' then ['\\', '\\']
  else if c = '\n' then ['\\', 'n']
  else if c = '\t' then ['\\', 't']
  else if c = '\r' then ['\\', 'r']
  else if c = '\x08' then ['\\', 'b']
  else if c = '\x0c' then ['\\', 'f']
  else if c.toNat < 32 then
    ['\\', 'u', '0', '0', hexDigitC (c.toNat / 16), hexDigitC (c.toNat % 16)]
  else [c]

/-- String-body escaping of `json.dumps(..., ensure_ascii=False)`. -/
def escStr (s : List Char) : List Char := s.foldr (fun c acc => escC c ++ acc) []

/-- Python `repr` of an `int`. -/
def printInt (n : Int) : List Char :=
  if n < 0 then '-' :: natDigits n.natAbs else natDigits n.natAbs

/-- Indentation spaces. -/
def spacesC (n : Nat) : List Char := List.replicate n ' '

mutual

/-- Model of `json.dumps(v, ensure_ascii=False, indent=2)` at nesting level `lvl`. -/
def printJ : Nat → J → List Char
  | _, .jnull => strL "null"
  | _, .jbool true => strL "true"
  | _, .jbool false => strL "false"
  | _, .jint n => printInt n
  | _, .jstr s => '"' :: (escStr s ++ ['"'])
  | _, .jarr [] => strL "[]"
  | lvl, .jarr (x :: xs) =>
    '[' :: '\n' :: (spacesC (2 * (lvl + 1)) ++ printJ (lvl + 1) x ++
      printElemsRest (lvl + 1) xs ++ '\n' :: (spacesC (2 * lvl) ++ [']']))
  | _, .jobj [] => strL "\x7b\x7d"
  | lvl, .jobj (f :: fs) =>
    '\x7b' :: '\n' :: (spacesC (2 * (lvl + 1)) ++ printField (lvl + 1) f ++
      printFieldsRest (lvl + 1) fs ++ '\n' :: (spacesC (2 * lvl) ++ ['\x7d']))

/-- Second and later array items, each preceded by `,\n` and indent. -/
def printElemsRest : Nat → List J → List Char
  | _, [] => []
  | lvl, x :: xs =>
    ',' :: '\n' :: (spacesC (2 * lvl) ++ printJ lvl x ++ printElemsRest lvl xs)

/-- One object member `"key": value`. -/
def printField : Nat → List Char × J → List Char
  | lvl, (k, v) => '"' :: (escStr k ++ '"' :: ':' :: ' ' :: printJ lvl v)

/-- Second and later object members, each preceded by `,\n` and indent. -/
def printFieldsRest : Nat → List (List Char × J) → List Char
  | _, [] => []
  | lvl, f :: fs =>
    ',' :: '\n' :: (spacesC (2 * lvl) ++ printField lvl f ++ printFieldsRest lvl fs)

end

/-- Model of `pick_io.norm` (source lines 98-100): canonicalize on parse success,
return the input unchanged on failure. -/
def norm (s : List Char) : List Char :=
  match parse s with
  | some v => printJ 0 v
  | none => s

/-- Well-formed JSON values: object keys are duplicate-free at every
level (every value built by the parser has this shape). -/
inductive WfJ : J → Prop where
  | null : WfJ .jnull
  | bool (b : Bool) : WfJ (.jbool b)
  | int (n : Int) : WfJ (.jint n)
  | str (s : List Char) : WfJ (.jstr s)
  | arr (xs : List J) : (∀ x, x ∈ xs → WfJ x) → WfJ (.jarr xs)
  | obj (fs : List (List Char × J)) : (fs.map Prod.fst).Nodup →
      (∀ kv, kv ∈ fs → WfJ kv.2) → WfJ (.jobj fs)

mutual

/-- A fuel budget sufficient for `parseVal` to parse the printed form of a
value. -/
def fneed : J → Nat
  | .jarr xs => 2 + fneedL xs
  | .jobj fs => 1 + fneedF fs
  | _ => 1

/-- Fuel budget for the elements of an array tail. -/
def fneedL : List J → Nat
  | [] => 0
  | x :: t => 1 + fneed x + fneedL t

/-- Fuel budget for the members of an object tail. -/
def fneedF : List (List Char × J) → Nat
  | [] => 0
  | f :: t => 2 + fneed f.2 + fneedF t

end

/-! ## Role classification (`pick_io`, source lines 81-102) -/

/-- Python `str.lower()` (ASCII model). -/
def lowerL (b : List Char) : List Char := b.map Char.toLower

/-- Response keyword set (source line 84). -/
def respKws : List (List Char) :=
  [strL "msgrshdr", strL "rspcode", strL "responsejson", strL "error"]

/-- Request keyword set (source line 87). -/
def reqKws : List (List Char) :=
  [strL "securitycontext", strL "custid", strL "userid", strL "data", strL "body"]

/-- Model of `is_resp` (source lines 82-84): block contains a response keyword,
case-insensitively. -/
def is_resp (b : List Char) : Bool :=
  respKws.any (fun k => hasSubstr k (lowerL b))

/-- The request-keyword part of `is_req` (before the response precedence
check). -/
def hasReqKw (b : List Char) : Bool :=
  reqKws.any (fun k => hasSubstr k (lowerL b))

/-- Model of `is_req` (source lines 85-87): request keyword present and not already
response-like. -/
def is_req (b : List Char) : Bool := hasReqKw b && !(is_resp b)

/-- Pair each block with its position. -/
def enumL : Nat → List (List Char) → List (Nat × List Char)
  | _, [] => []
  | k, b :: bs => (k, b) :: enumL (k + 1) bs

/-- First block (with its position) satisfying `p`
(Python `next((b for b in blocks if p(b)), "")`). -/
def findFirstP (p : List Char → Bool) (blocks : List (List Char)) :
    Option (Nat × List Char) :=
  (enumL 0 blocks).find? (fun x => p x.2)

/-- Fold of Python `max(..., key=len)`: the first entry of maximal length
(a later entry replaces the current best only when strictly longer). -/
def bestAcc : Option (Nat × List Char) → List (Nat × List Char) →
    Option (Nat × List Char)
  | best, [] => best
  | none, x :: t => bestAcc (some x) t
  | some b, x :: t => bestAcc (if b.2.length < x.2.length then some x else some b) t

/-- Model of `max(blocks, key=len)` with its position (`none` on the empty list,
where Python would not reach the call). -/
def argmaxLen (blocks : List (List Char)) : Option (Nat × List Char) :=
  bestAcc none (enumL 0 blocks)

/-- Model of `max(rest, key=len)` where `rest = [b for b in blocks if b is not inp]`:
the longest block excluding the one at position `i`, by original
position. -/
def argmaxLenExcl (i : Nat) (blocks : List (List Char)) : Option (Nat × List Char) :=
  bestAcc none ((enumL 0 blocks).filter (fun x => x.1 ≠ i))

/-- The selection logic of `pick_io` (source lines 89-96), returning the
selected input and output blocks together with their positions in the
candidate list (`none` = empty-string selection). -/
def pick_sel (blocks : List (List Char)) :
    Option (Nat × List Char) × Option (Nat × List Char) :=
  let inp := match findFirstP is_req blocks with
    | some x => some x
    | none => argmaxLen blocks
  let outSel := match findFirstP is_resp blocks with
    | some y => some y
    | none =>
      match inp with
      | some x => argmaxLenExcl x.1 blocks
      | none => none
  (inp, outSel)

/-- Model of `pick_io` (source lines 81-102): normalized input and output texts. -/
def pick_io (blocks : List (List Char)) : List Char × List Char :=
  let sel := pick_sel blocks
  (norm (match sel.1 with | some x => x.2 | none => []),
   norm (match sel.2 with | some y => y.2 | none => []))

/-! ## Record assembly (`main`, source lines 106-134) -/

/-- One output record (row of the final table). -/
structure Row where
  index : Nat
  fileName : List Char
  url : List Char
  method : List Char
  input : List Char
  respCode : List Char
  output : List Char

/-- Placeholder record for a document with no extractable text
(source lines 115-116). -/
def placeholderRow (idx : Nat) (name : List Char) : Row :=
  ⟨idx, name, [], strL "POST", [], strL "200", []⟩

/-- The per-endpoint loop of `main` (source lines 121-134): anchor at the
first literal occurrence of the path, extract blocks there (an empty list
when anchoring fails), classify, and emit one record per endpoint with the
running index. -/
def emitRows (name text : List Char) : List (List Char) → Nat → List Row × Nat
  | [], idx => ([], idx)
  | u :: us, idx =>
    let blocks := match findSubIdx u text with
      | some m => json_blocks_near text m
      | none => []
    let pq := pick_io blocks
    let rest := emitRows name text us (idx + 1)
    (⟨idx, name, u, strL "POST", pq.1, strL "200", pq.2⟩ :: rest.1, rest.2)

/-- Processing of one document (source lines 112-134): placeholder record
when the text has no extractable characters, else one record per
discovered endpoint. -/
def processDoc (idx : Nat) (name text : List Char) : List Row × Nat :=
  if (stripWs text).isEmpty then ([placeholderRow idx name], idx + 1)
  else emitRows name text (find_urls text) idx

/-- Lexicographic order on file names (Python string `<=` on code
points). -/
def lexLe : List Char → List Char → Bool
  | [], _ => true
  | _ :: _, [] => false
  | a :: as, b :: bs => if a = b then lexLe as bs else decide (a.toNat < b.toNat)

/-- Insertion step of the file-name sort. -/
def insertDoc (d : List Char × List Char) :
    List (List Char × List Char) → List (List Char × List Char)
  | [] => [d]
  | e :: es => if lexLe d.1 e.1 then d :: e :: es else e :: insertDoc d es

/-- Model of `sorted(SPEC_DIR.glob("*.pdf"))` (source line 112): stable sort of the
documents by file name. -/
def sortByName : List (List Char × List Char) → List (List Char × List Char)
  | [] => []
  | d :: ds => insertDoc d (sortByName ds)

/-- The document loop of `main` with the global running index. -/
def runAll : Nat → List (List Char × List Char) → List Row × Nat
  | idx, [] => ([], idx)
  | idx, d :: ds =>
    let pr := processDoc idx d.1 d.2
    let rest := runAll pr.2 ds
    (pr.1 ++ rest.1, rest.2)

/-- Model of `main` (source lines 106-134) on a list of `(file name, text)`
documents: the full ordered record sequence, indices starting at 1. -/
def mainRun (docs : List (List Char × List Char)) : List Row :=
  (runAll 1 (sortByName docs)).1

/-- The consecutive integers `s, s+1, ..., s+n-1`. -/
def seqFrom : Nat → Nat → List Nat
  | _, 0 => []
  | s, n + 1 => s :: seqFrom (s + 1) n

/-! ## Concrete test fixtures used by the claim theorems -/

/-- The spec's balanced-brace example text. -/
def c2text : List Char := strL "prefix \x7b\"a\":\x7b\"b\":1\x7d\x7d suffix"

/-- Its nested balanced block (13 characters). -/
def c2block : List Char := strL "\x7b\"a\":\x7b\"b\":1\x7d\x7d"

/-- The same nested shape padded beyond the 50-character threshold. -/
def c2bigText : List Char :=
  strL "pre \x7b\"a\":\x7b\"b\":\"cccccccccccccccccccccccccccccccccccccccccccc\"\x7d\x7d post"

/-- The padded nested block. -/
def c2bigBlock : List Char :=
  strL "\x7b\"a\":\x7b\"b\":\"cccccccccccccccccccccccccccccccccccccccccccc\"\x7d\x7d"

/-- A single response-like block (contains the keyword `error`). -/
def c3respBlock : List Char := strL "\x7b\"error\": true\x7d"

/-- A request-like block followed by a response-like block. -/
def c3blocks2 : List (List Char) :=
  [strL "\x7b\"custId\": 1\x7d", strL "\x7b\"rspCode\": \"00\"\x7d"]

/-- A block containing both a response keyword and a request keyword. -/
def c4b : List Char := strL "\x7b\"rspCode\": 0, \"custId\": 9\x7d"

/-- Two documents with two endpoints each, given in unsorted file-name
order. -/
def c7docs : List (List Char × List Char) :=
  [(strL "b.pdf", strL "POST /x POST /z"), (strL "a.pdf", strL "POST /x POST /y")]

/-! ## Theorems -/

theorem dedupSeen_foldl (ms : List (List Char)) : ∀ (acc seen : List (List Char)),
    (∀ x : List Char, x ∈ seen ↔ x ∈ acc) →
    ms.foldl (fun a x => if x ∈ a then a else a ++ [x]) acc = acc ++ dedupSeen ms seen := by
  induction ms with
  | nil => intro acc seen _; simp [dedupSeen]
  | cons u rest ih =>
    intro acc seen hiff
    by_cases hu : u ∈ seen
    · have hu' : u ∈ acc := (hiff u).mp hu
      simp only [List.foldl_cons, dedupSeen, if_pos hu, if_pos hu']
      exact ih acc seen hiff
    · have hu' : u ∉ acc := fun h => hu ((hiff u).mpr h)
      simp only [List.foldl_cons, dedupSeen, if_neg hu, if_neg hu']
      rw [ih (acc ++ [u]) (u :: seen) (by intro x; simp [hiff x, or_comm])]
      simp

theorem dedupSeen_nodup (ms : List (List Char)) : ∀ seen : List (List Char),
    (dedupSeen ms seen).Nodup ∧ ∀ x ∈ dedupSeen ms seen, x ∉ seen := by
  induction ms with
  | nil => intro seen; simp [dedupSeen]
  | cons u rest ih =>
    intro seen
    by_cases hu : u ∈ seen
    · simpa [dedupSeen, if_pos hu] using ih seen
    · have h2 := ih (u :: seen)
      refine ⟨?_, ?_⟩
      · simp only [dedupSeen, if_neg hu, List.nodup_cons]
        exact ⟨fun hmem => (h2.2 u hmem) (by simp), h2.1⟩
      · intro x hx
        simp only [dedupSeen, if_neg hu, List.mem_cons] at hx
        rcases hx with rfl | hx
        · exact hu
        · intro hxs; exact (h2.2 x hx) (by simp [hxs])

/-- C5: endpoint discovery returns the matches of `POST\s+(/\S+)` in
first-occurrence order, later repetitions never re-added (so the result is
duplicate-free); in particular `POST /a POST /b POST /a` yields
`["/a", "/b"]`. -/
theorem find_urls_dedup_first :
    (∀ text, find_urls text = specDedup (rawMatches text) ∧ (find_urls text).Nodup) ∧
    find_urls (strL "POST /a POST /b POST /a") = [strL "/a", strL "/b"] := by
  refine ⟨fun text => ⟨?_, (dedupSeen_nodup (rawMatches text) []).1⟩, by decide⟩
  rw [find_urls, specDedup, dedupSeen_foldl (rawMatches text) [] [] (by simp)]
  simp

theorem blocksAux_take_filter : ∀ fuel cap rest, blocksAux fuel cap rest =
    ((spansAux fuel rest).filter keepPred).take cap := by
  intro fuel
  induction fuel with
  | zero => intro cap rest; simp [blocksAux, spansAux]
  | succ fuel ih =>
    intro cap rest
    cases cap with
    | zero => simp [blocksAux]
    | succ cap =>
      simp only [blocksAux, spansAux]
      cases hdb : dropToBrace rest with
      | nil => simp
      | cons c t =>
        dsimp only
        cases hb : balAux 1 t with
        | none => simp
        | some p =>
          obtain ⟨body, after⟩ := p
          dsimp only
          by_cases hk : keepPred (stripWs (c :: body))
          · simp [hk, List.filter_cons, ih cap after]
          · simp [hk, List.filter_cons, ih (cap + 1) after]

/-- C6: a balanced-brace span encountered by the extractor's scan is kept
exactly when its trimmed length strictly exceeds the 50-character
threshold (the output is the kept spans, cut off at the block cap);
consequently every returned candidate has trimmed length at least 51 —
so the 2-character candidate of `a {} b` is never returned — and the
51+-character nested candidate of `c2bigText` is returned. -/
theorem json_blocks_keep :
    (∀ text center, json_blocks_near text center =
      ((spansAux ((spanOf text center).length + 1) (spanOf text center)).filter
        keepPred).take maxBlocksC) ∧
    (∀ text center b, b ∈ json_blocks_near text center → minLenC < b.length) ∧
    json_blocks_near (strL "a \x7b\x7d b") 0 = [] ∧
    json_blocks_near c2bigText 0 = [c2bigBlock] := by
  refine ⟨fun text center => blocksAux_take_filter _ _ _, fun text center b hb => ?_,
    by decide, by decide⟩
  rw [json_blocks_near, blocksAux_take_filter] at hb
  have hb' := List.mem_of_mem_take hb
  have := (List.mem_filter.mp hb').2
  simpa [keepPred] using this

/-- C6 witness: the padded nested candidate is a returned block of trimmed
length exceeding the threshold. -/
theorem json_blocks_keep_witness : minLenC < c2bigBlock.length :=
  json_blocks_keep.2.1 c2bigText 0 c2bigBlock (by decide)

/-- C2 counterexample: on the spec's example text the extractor returns no
candidate at all — the nested 13-character block fails the `> 50`
minimum-length filter — not the claimed single candidate. -/
theorem c2_counterexample :
    json_blocks_near c2text 0 = [] ∧ json_blocks_near c2text 0 ≠ [c2block] := by
  exact ⟨by decide, by decide⟩

/-- C2 amended: nested braces indeed do not terminate the scan early — on
the same nested shape padded past the 50-character threshold the extractor
returns exactly one candidate, the whole outer block — but the spec's
13-character example itself is rejected by the minimum-length filter, so
it returns no candidate there. -/
theorem c2_amended :
    json_blocks_near c2bigText 0 = [c2bigBlock] ∧ json_blocks_near c2text 0 = [] := by
  exact ⟨by decide, by decide⟩

/-- C4: a block containing a response keyword is response-like, and the
response precedence in `is_req` makes it never request-like, regardless of
any request keywords it also contains. -/
theorem resp_precedence (b : List Char) (h1 : is_resp b = true)
    (_h2 : hasReqKw b = true) : is_resp b = true ∧ is_req b = false :=
  ⟨h1, by simp [is_req, h1]⟩

/-- C4 witness: a concrete block containing both `rspCode` and `custId` is
response-like and not request-like. -/
theorem resp_precedence_witness : is_resp c4b = true ∧ is_req c4b = false :=
  resp_precedence c4b (by decide) (by decide)

theorem enumL_idx_ge : ∀ (l : List (List Char)) (k i : Nat) (x : List Char),
    (i, x) ∈ enumL k l → k ≤ i := by
  intro l
  induction l with
  | nil => intro k i x h; simp [enumL] at h
  | cons b bs ih =>
    intro k i x h
    simp only [enumL, List.mem_cons] at h
    rcases h with h | h
    · injection h with h1 _; omega
    · exact Nat.le_of_succ_le (ih (k + 1) i x h)

theorem enumL_inj : ∀ (l : List (List Char)) (k i : Nat) (b1 b2 : List Char),
    (i, b1) ∈ enumL k l → (i, b2) ∈ enumL k l → b1 = b2 := by
  intro l
  induction l with
  | nil => intro k i b1 b2 h; simp [enumL] at h
  | cons b bs ih =>
    intro k i b1 b2 h1 h2
    simp only [enumL, List.mem_cons, Prod.mk.injEq] at h1 h2
    rcases h1 with ⟨hi1, hb1⟩ | h1
    · rcases h2 with ⟨_, hb2⟩ | h2
      · exact hb1.trans hb2.symm
      · exact absurd (enumL_idx_ge bs (k + 1) i b2 h2) (by omega)
    · rcases h2 with ⟨hi2, _⟩ | h2
      · exact absurd (enumL_idx_ge bs (k + 1) i b1 h1) (by omega)
      · exact ih (k + 1) i b1 b2 h1 h2

theorem bestAcc_mem : ∀ (l : List (Nat × List Char)) (best : Option (Nat × List Char))
    (r : Nat × List Char), bestAcc best l = some r → best = some r ∨ r ∈ l := by
  intro l
  induction l with
  | nil => intro best r h; exact Or.inl (by simpa [bestAcc] using h)
  | cons x t ih =>
    intro best r h
    cases best with
    | none =>
      rcases ih (some x) r h with h' | h'
      · exact Or.inr (by simp [Option.some_inj.mp h'])
      · exact Or.inr (List.mem_cons_of_mem _ h')
    | some b =>
      simp only [bestAcc] at h
      rcases ih _ r h with h' | h'
      · by_cases hlt : b.2.length < x.2.length
        · simp only [if_pos hlt, Option.some_inj] at h'
          exact Or.inr (by simp [h'])
        · simp only [if_neg hlt, Option.some_inj] at h'
          exact Or.inl (by simp [h'])
      · exact Or.inr (List.mem_cons_of_mem _ h')

theorem argmaxLen_mem (blocks : List (List Char)) (r : Nat × List Char)
    (h : argmaxLen blocks = some r) : r ∈ enumL 0 blocks := by
  rcases bestAcc_mem _ _ _ h with h' | h'
  · exact absurd h' (by simp)
  · exact h'

theorem argmaxLenExcl_mem (i : Nat) (blocks : List (List Char)) (r : Nat × List Char)
    (h : argmaxLenExcl i blocks = some r) : r ∈ enumL 0 blocks ∧ r.1 ≠ i := by
  rcases bestAcc_mem _ _ _ h with h' | h'
  · exact absurd h' (by simp)
  · have := List.mem_filter.mp h'
    exact ⟨this.1, by simpa using this.2⟩

theorem findFirstP_spec (p : List Char → Bool) (blocks : List (List Char))
    (i : Nat) (b : List Char) (h : findFirstP p blocks = some (i, b)) :
    (i, b) ∈ enumL 0 blocks ∧ p b = true := by
  refine ⟨List.mem_of_find?_eq_some h, ?_⟩
  have := List.find?_some h
  simpa using this

/-- C3 counterexample: on a single response-like candidate both selections
are the very same block of the list (position 0) — the response block is
chosen as output by the keyword scan, and as input by the longest-block
fallback — with both selections non-empty. -/
theorem pick_sel_same_block :
    (pick_sel [c3respBlock]).1 = some (0, c3respBlock) ∧
    (pick_sel [c3respBlock]).2 = some (0, c3respBlock) ∧ c3respBlock ≠ [] := by
  exact ⟨by decide, by decide, by decide⟩

/-- C3 amended: when both an input and an output block are selected, they
are distinct blocks of the candidate list whenever the input was selected
by the request-keyword rule, or the output came from the longest-block
fallback; only when the input comes from the longest-block fallback while
some block is response-like may the two selections be the same block. -/
theorem pick_sel_distinct (blocks : List (List Char)) (i : Nat) (bi : List Char)
    (j : Nat) (bj : List Char)
    (h1 : (pick_sel blocks).1 = some (i, bi))
    (h2 : (pick_sel blocks).2 = some (j, bj))
    (h3 : is_req bi = true ∨ findFirstP is_resp blocks = none) : i ≠ j := by
  cases hreq : findFirstP is_req blocks with
  | some x =>
    cases hresp : findFirstP is_resp blocks with
    | some y =>
      simp only [pick_sel, hreq, hresp] at h1 h2
      obtain rfl : x = (i, bi) := Option.some_inj.mp h1
      obtain rfl : y = (j, bj) := Option.some_inj.mp h2
      have hi := findFirstP_spec _ _ _ _ hreq
      have hj := findFirstP_spec _ _ _ _ hresp
      intro hij
      subst hij
      have : bi = bj := enumL_inj blocks 0 i bi bj hi.1 hj.1
      subst this
      have hcontra := hi.2
      rw [is_req, hj.2] at hcontra
      simp at hcontra
    | none =>
      simp only [pick_sel, hreq, hresp] at h1 h2
      obtain rfl : x = (i, bi) := Option.some_inj.mp h1
      have hne := (argmaxLenExcl_mem _ _ _ h2).2
      simp only at hne
      omega
  | none =>
    cases hresp : findFirstP is_resp blocks with
    | some y =>
      simp only [pick_sel, hreq, hresp] at h1 h2
      have hmem := argmaxLen_mem _ _ h1
      have hall := List.find?_eq_none.mp hreq
      have : is_req bi = false := by
        have := hall (i, bi) hmem
        simpa using this
      rcases h3 with h3 | h3
      · rw [this] at h3; exact absurd h3 (by simp)
      · rw [h3] at hresp; exact absurd hresp (by simp)
    | none =>
      simp only [pick_sel, hreq, hresp] at h1 h2
      rw [h1] at h2
      simp only at h2
      have hne := (argmaxLenExcl_mem _ _ _ h2).2
      simp only at hne
      omega

/-- C3 amended, witness: on a request-like block followed by a
response-like block the keyword scans select positions 0 and 1, which are
distinct. -/
theorem pick_sel_distinct_witness : (0 : Nat) ≠ 1 :=
  pick_sel_distinct c3blocks2 0 (strL "\x7b\"custId\": 1\x7d") 1
    (strL "\x7b\"rspCode\": \"00\"\x7d") (by decide) (by decide) (Or.inl (by decide))

theorem begWith_hasSubstr : ∀ (u l : List Char), begWith u l = true → hasSubstr u l = true := by
  intro u l h
  cases l with
  | nil =>
    cases u with
    | nil => simp [hasSubstr]
    | cons a as => simp [begWith] at h
  | cons c t => simp [hasSubstr, h]

theorem hasSubstr_cons (u : List Char) (c : Char) (t : List Char)
    (h : hasSubstr u t = true) : hasSubstr u (c :: t) = true := by
  simp [hasSubstr, h]

theorem hasSubstr_dropWhile (u : List Char) (p : Char → Bool) :
    ∀ l, hasSubstr u (l.dropWhile p) = true → hasSubstr u l = true := by
  intro l
  induction l with
  | nil => simp [List.dropWhile]
  | cons c t ih =>
    intro h
    by_cases hp : p c
    · rw [List.dropWhile_cons, if_pos hp] at h
      exact hasSubstr_cons u c t (ih h)
    · rwa [List.dropWhile_cons, if_neg hp] at h

theorem begWith_takeWhile (p : Char → Bool) : ∀ l, begWith (l.takeWhile p) l = true := by
  intro l
  induction l with
  | nil => simp [List.takeWhile, begWith]
  | cons c t ih =>
    by_cases hp : p c
    · rw [List.takeWhile_cons, if_pos hp]
      simpa [begWith] using ih
    · rw [List.takeWhile_cons, if_neg hp]
      simp [begWith]

theorem matchAt_sub (l u rest : List Char) (hm : matchAt l = some (u, rest)) :
    hasSubstr u l = true ∧ (∀ x, hasSubstr x rest = true → hasSubstr x l = true) := by
  rw [matchAt.eq_def] at hm
  split at hm
  case h_2 => exact absurd hm (by simp)
  case h_1 c t =>
    split at hm
    case isFalse => exact absurd hm (by simp)
    case isTrue hsp =>
      split at hm
      case h_2 => exact absurd hm (by simp)
      case h_1 u' heq =>
        simp only at hm
        split at hm
        case isTrue => exact absurd hm (by simp)
        case isFalse hne =>
          obtain ⟨rfl, rfl⟩ : '/' :: u'.takeWhile (fun d => !(isSpc d)) = u ∧
              u'.dropWhile (fun d => !(isSpc d)) = rest := by
            have := Option.some_inj.mp hm
            exact ⟨congrArg Prod.fst this, congrArg Prod.snd this⟩
          constructor
          · apply hasSubstr_cons; apply hasSubstr_cons; apply hasSubstr_cons; apply hasSubstr_cons
            apply hasSubstr_dropWhile _ isSpc
            rw [heq]
            apply begWith_hasSubstr
            simpa [begWith] using begWith_takeWhile (fun d => !(isSpc d)) u'
          · intro x hx
            apply hasSubstr_cons; apply hasSubstr_cons; apply hasSubstr_cons; apply hasSubstr_cons
            apply hasSubstr_dropWhile _ isSpc
            rw [heq]
            apply hasSubstr_cons
            exact hasSubstr_dropWhile _ _ _ hx

theorem rawAux_sub : ∀ (fuel : Nat) (l u : List Char), u ∈ rawAux fuel l → hasSubstr u l = true := by
  intro fuel
  induction fuel with
  | zero => intro l u h; simp [rawAux] at h
  | succ fuel ih =>
    intro l u h
    cases l with
    | nil => simp [rawAux] at h
    | cons c t =>
      rw [rawAux] at h
      cases hm : matchAt (c :: t) with
      | none =>
        rw [hm] at h
        exact hasSubstr_cons u c t (ih t u h)
      | some p =>
        obtain ⟨u₀, rest⟩ := p
        rw [hm] at h
        rcases List.mem_cons.mp h with rfl | h
        · exact (matchAt_sub _ _ _ hm).1
        · exact (matchAt_sub _ _ _ hm).2 u (ih rest u h)

theorem hasSubstr_findSubIdx : ∀ (l u : List Char),
    hasSubstr u l = true → (findSubIdx u l).isSome = true := by
  intro l
  induction l with
  | nil =>
    intro u h
    simp only [hasSubstr] at h
    simp [findSubIdx, h]
  | cons c t ih =>
    intro u h
    simp only [hasSubstr, Bool.or_eq_true] at h
    by_cases hb : begWith u (c :: t)
    · simp [findSubIdx, hb]
    · rcases h with h | h
      · exact absurd h hb
      · have hs := ih u h
        simp only [findSubIdx, if_neg hb]
        cases hopt : findSubIdx u t with
        | none => rw [hopt] at hs; simp at hs
        | some k => simp [hopt]

theorem dedupSeen_sub : ∀ (ms seen : List (List Char)) (x : List Char),
    x ∈ dedupSeen ms seen → x ∈ ms := by
  intro ms
  induction ms with
  | nil => intro seen x h; simp [dedupSeen] at h
  | cons u rest ih =>
    intro seen x h
    by_cases hu : u ∈ seen
    · rw [dedupSeen, if_pos hu] at h
      exact List.mem_cons_of_mem _ (ih seen x h)
    · rw [dedupSeen, if_neg hu] at h
      rcases List.mem_cons.mp h with rfl | h
      · exact List.mem_cons_self _ _
      · exact List.mem_cons_of_mem _ (ih (u :: seen) x h)

/-- C10: every path returned by endpoint discovery is a substring of the
document text, so the assembler's anchor search for its first literal
occurrence always succeeds and the defensive empty-block-list branch of
`main` (source line 123, `if m else []`) is unreachable. -/
theorem anchor_always_found (text u : List Char) (h : u ∈ find_urls text) :
    (findSubIdx u text).isSome = true := by
  apply hasSubstr_findSubIdx
  exact rawAux_sub _ _ _ (dedupSeen_sub _ _ _ h)

/-- C10 witness: the discovered path `/a` of `POST /a` is anchored. -/
theorem anchor_always_found_witness :
    (findSubIdx (strL "/a") (strL "POST /a")).isSome = true :=
  anchor_always_found (strL "POST /a") (strL "/a") (by decide)

theorem emitRows_shape (name text : List Char) : ∀ (us : List (List Char)) (idx : Nat),
    (emitRows name text us idx).1.map Row.url = us ∧
    (emitRows name text us idx).1.length = us.length ∧
    (emitRows name text us idx).2 = idx + us.length := by
  intro us
  induction us with
  | nil => intro idx; simp [emitRows]
  | cons u us ih =>
    intro idx
    have h := ih (idx + 1)
    simp only [emitRows, List.map_cons, List.length_cons]
    refine ⟨by rw [h.1], by rw [h.2.1], by rw [h.2.2]; omega⟩

/-- C1 amended: a document with no extractable text produces exactly the
single placeholder record; a document with extractable text produces
exactly one record per discovered endpoint, in discovery order — which is
zero records when the non-empty text contains no endpoint declaration, so
not every processed document appends a record. -/
theorem processDoc_records (idx : Nat) (name text : List Char) :
    if (stripWs text).isEmpty
    then (processDoc idx name text).1 = [placeholderRow idx name]
    else (processDoc idx name text).1.map Row.url = find_urls text ∧
         (processDoc idx name text).1.length = (find_urls text).length := by
  by_cases h : (stripWs text).isEmpty
  · simp [processDoc, h]
  · have hs := emitRows_shape name text (find_urls text) idx
    simp only [h, Bool.false_eq_true, if_false]
    simp only [processDoc, h, Bool.false_eq_true, if_false]
    exact ⟨hs.1, hs.2.1⟩

/-- C1 counterexample: the document `a.pdf` with the non-empty text
`hello` (no endpoint declarations) is processed through the endpoint path
and produces zero records, refuting "at least one record per document". -/
theorem processDoc_zero_records :
    (processDoc 1 (strL "a.pdf") (strL "hello")).1 = [] ∧
    (stripWs (strL "hello")).isEmpty = false := ⟨rfl, by decide⟩

theorem seqFrom_append : ∀ (n s m : Nat),
    seqFrom s (n + m) = seqFrom s n ++ seqFrom (s + n) m := by
  intro n
  induction n with
  | zero => intro s m; simp [seqFrom]
  | succ n ih =>
    intro s m
    have : n + 1 + m = (n + m) + 1 := by omega
    rw [this, seqFrom, seqFrom, ih (s + 1) m]
    simp only [List.cons_append]
    have : s + 1 + n = s + (n + 1) := by omega
    rw [this]

theorem emitRows_index (name text : List Char) : ∀ (us : List (List Char)) (idx : Nat),
    (emitRows name text us idx).1.map Row.index = seqFrom idx us.length := by
  intro us
  induction us with
  | nil => intro idx; simp [emitRows, seqFrom]
  | cons u us ih =>
    intro idx
    simp only [emitRows, List.map_cons, List.length_cons, seqFrom]
    rw [ih (idx + 1)]

theorem processDoc_index (idx : Nat) (name text : List Char) :
    (processDoc idx name text).1.map Row.index =
      seqFrom idx (processDoc idx name text).1.length ∧
    (processDoc idx name text).2 = idx + (processDoc idx name text).1.length := by
  by_cases h : (stripWs text).isEmpty
  · simp [processDoc, h, placeholderRow, seqFrom]
  · simp only [processDoc, h, Bool.false_eq_true, if_false]
    have hs := emitRows_shape name text (find_urls text) idx
    rw [hs.2.1, hs.2.2]
    exact ⟨emitRows_index name text (find_urls text) idx, rfl⟩

theorem runAll_index : ∀ (ds : List (List Char × List Char)) (idx : Nat),
    (runAll idx ds).1.map Row.index = seqFrom idx (runAll idx ds).1.length ∧
    (runAll idx ds).2 = idx + (runAll idx ds).1.length := by
  intro ds
  induction ds with
  | nil => intro idx; simp [runAll, seqFrom]
  | cons d ds ih =>
    intro idx
    have hd := processDoc_index idx d.1 d.2
    have ht := ih (processDoc idx d.1 d.2).2
    simp only [runAll, List.map_append, List.length_append]
    constructor
    · rw [seqFrom_append, ← hd.2]
      exact congrArg₂ (· ++ ·) hd.1 ht.1
    · rw [ht.2, hd.2]
      omega

/-- C7: across an entire run the record indices are exactly the
consecutive integers starting at 1 — strictly increasing, no gaps, no
resets between documents — assigned in lexicographically sorted file-name
order and, within a document, in endpoint discovery order; on two
unsorted documents with two endpoints each, the records get indices
1,2,3,4 with `a.pdf` before `b.pdf` and discovery order inside each. -/
theorem global_index_monotone :
    (∀ docs, (mainRun docs).map Row.index = seqFrom 1 (mainRun docs).length) ∧
    (mainRun c7docs).map (fun r => (r.index, r.fileName, r.url)) =
      [(1, strL "a.pdf", strL "/x"), (2, strL "a.pdf", strL "/y"),
       (3, strL "b.pdf", strL "/x"), (4, strL "b.pdf", strL "/z")] := by
  constructor
  · intro docs
    have := runAll_index (sortByName docs) 1
    simpa [mainRun] using this.1
  · decide

theorem skipWs_cons_of_not (c : Char) (t : List Char) (h : isWsC c = false) :
    skipWs (c :: t) = c :: t := by
  simp [skipWs, List.dropWhile_cons, h]

theorem skipWs_ws_cons (c : Char) (l : List Char) (h : isWsC c = true) :
    skipWs (c :: l) = skipWs l := by
  simp [skipWs, List.dropWhile_cons, h]

theorem skipWs_spaces (n : Nat) (l : List Char) : skipWs (spacesC n ++ l) = skipWs l := by
  induction n with
  | zero => simp [spacesC]
  | succ n ih =>
    rw [spacesC, List.replicate_succ, List.cons_append, skipWs_ws_cons _ _ (by decide)]
    exact ih

theorem ws_toNat (c : Char) (h : isWsC c = true) :
    c.toNat = 32 ∨ c.toNat = 9 ∨ c.toNat = 10 ∨ c.toNat = 13 := by
  simp only [isWsC, Bool.or_eq_true, decide_eq_true_eq] at h
  rcases h with ((h | h) | h) | h <;> subst h <;> simp

theorem isDigitC_not_ws (c : Char) (h : isDigitC c = true) : isWsC c = false := by
  cases hw : isWsC c
  · rfl
  · exfalso
    have h2 := ws_toNat c hw
    have h1 : 48 ≤ c.toNat ∧ c.toNat ≤ 57 := by simpa [isDigitC] using h
    omega

theorem digitChar_val (n : Nat) (h : n < 10) :
    digitVal (digitChar n) = n ∧ isDigitC (digitChar n) = true ∧
    (n ≠ 0 → digitChar n ≠ '0') ∧ (digitChar n).toNat = 48 + n := by
  interval_cases n <;> exact ⟨by decide, by decide, by decide, by decide⟩

theorem natDigits_head : ∀ n : Nat, ∃ c t, natDigits n = c :: t ∧ isDigitC c = true ∧
    (n ≠ 0 → c ≠ '0') := by
  intro n
  induction n using Nat.strong_induction_on with
  | _ n ih =>
    by_cases h : n < 10
    · exact ⟨digitChar n, [], by rw [natDigits]; simp [h], (digitChar_val n h).2.1,
        (digitChar_val n h).2.2.1⟩
    · obtain ⟨c, t, hct, hd, h0⟩ := ih (n / 10) (Nat.div_lt_self (by omega) (by omega))
      refine ⟨c, t ++ [digitChar (n % 10)], ?_, hd, fun _ => h0 (by omega)⟩
      rw [natDigits]
      simp only [h, dite_false]
      rw [hct]
      rfl

theorem natDigits_parse (n : Nat) : ∃ k, 0 < k ∧ ∀ acc rest,
    parseDigitsAcc acc (natDigits n ++ rest) = parseDigitsAcc (acc * 10 ^ k + n) rest := by
  induction n using Nat.strong_induction_on with
  | _ n ih =>
    by_cases h : n < 10
    · refine ⟨1, one_pos, fun acc rest => ?_⟩
      rw [natDigits]
      simp only [h, dite_true, List.singleton_append]
      simp [parseDigitsAcc, (digitChar_val n h).2.1, (digitChar_val n h).1, pow_one]
    · obtain ⟨k, hk, hrec⟩ := ih (n / 10) (Nat.div_lt_self (by omega) (by omega))
      refine ⟨k + 1, by omega, fun acc rest => ?_⟩
      rw [natDigits]
      simp only [h, dite_false]
      rw [List.append_assoc, List.singleton_append, hrec acc (digitChar (n % 10) :: rest)]
      have hm : n % 10 < 10 := Nat.mod_lt _ (by omega)
      simp only [parseDigitsAcc, (digitChar_val _ hm).2.1, (digitChar_val _ hm).1, if_true]
      have hdm : 10 * (n / 10) + n % 10 = n := Nat.div_add_mod n 10
      have harith : (acc * 10 ^ k + n / 10) * 10 + n % 10 = acc * 10 ^ (k + 1) + n := by
        calc (acc * 10 ^ k + n / 10) * 10 + n % 10
            = acc * (10 ^ k * 10) + (10 * (n / 10) + n % 10) := by ring
          _ = acc * 10 ^ (k + 1) + n := by rw [hdm, pow_succ]
      rw [harith]

theorem parseDigitsAcc_stop (A : Nat) (rest : List Char)
    (h : ∀ c t, rest = c :: t → isDigitC c = false) :
    parseDigitsAcc A rest = (A, rest) := by
  cases rest with
  | nil => rfl
  | cons c t => simp [parseDigitsAcc, h c t rfl]

theorem parseUInt_rt (n : Nat) (rest : List Char)
    (h : ∀ c t, rest = c :: t → isDigitC c = false) :
    parseUInt (natDigits n ++ rest) = some (n, rest) := by
  by_cases h0 : n = 0
  · subst h0
    have hz : natDigits 0 = ['0'] := by rw [natDigits]; simp; decide
    rw [hz, List.singleton_append]
    simp [parseUInt]
  · obtain ⟨c, t, hct, hd, hne0⟩ := natDigits_head n
    obtain ⟨k, hk, hrec⟩ := natDigits_parse n
    have hkey : parseDigitsAcc 0 (natDigits n ++ rest) = (n, rest) := by
      rw [hrec 0 rest]
      simpa using parseDigitsAcc_stop n rest h
    rw [hct, List.cons_append] at hkey ⊢
    simp only [parseDigitsAcc, hd, if_true, Nat.zero_mul, Nat.zero_add] at hkey
    simp [parseUInt, hne0 h0, hd, hkey]

theorem parseIntTok_rt (n : Int) (rest : List Char)
    (h : ∀ c t, rest = c :: t → isDigitC c = false) :
    parseIntTok (printInt n ++ rest) = some (n, rest) := by
  by_cases hneg : n < 0
  · rw [printInt, if_pos hneg, List.cons_append]
    show Option.map (fun p => (-(p.1 : Int), p.2)) (parseUInt (natDigits n.natAbs ++ rest)) =
      some (n, rest)
    rw [parseUInt_rt n.natAbs rest h]
    have habs : (-(n.natAbs : Int)) = n := by omega
    simp only [Option.map_some', habs]
  · rw [printInt, if_neg hneg]
    obtain ⟨c, t, hct, hd, _⟩ := natDigits_head n.natAbs
    rw [hct, List.cons_append, parseIntTok.eq_def]
    split
    · rename_i t' heq
      exfalso
      injection heq with h1 _
      rw [h1] at hd
      exact absurd hd (by decide)
    · rw [← List.cons_append, ← hct, parseUInt_rt n.natAbs rest h]
      have habs : ((n.natAbs : Int)) = n := by omega
      simp only [Option.map_some', habs]

theorem hexVal_hexDigitC (k : Nat) (h : k < 16) : hexVal (hexDigitC k) = some k := by
  interval_cases k <;> decide

theorem parseStringBody_u00 (e1 e2 : Char) (a b : Nat) (t : List Char)
    (h1 : hexVal e1 = some a) (h2 : hexVal e2 = some b) (hcode : a * 16 + b < 55296) :
    parseStringBody ('\\' :: 'u' :: '0' :: '0' :: e1 :: e2 :: t) =
      (parseStringBody t).map (fun p => (Char.ofNat (a * 16 + b) :: p.1, p.2)) := by
  rw [parseStringBody]
  rw [show hexVal '0' = some 0 from rfl, h1, h2]
  dsimp only
  rw [if_pos (Or.inl (by omega : ((0 * 16 + 0) * 16 + a) * 16 + b < 55296))]
  have : ((0 * 16 + 0) * 16 + a) * 16 + b = a * 16 + b := by ring
  rw [this]

theorem parseStringBody_esc : ∀ (s rest : List Char),
    parseStringBody (escStr s ++ '"' :: rest) = some (s, rest) := by
  intro s
  induction s with
  | nil => intro rest; rfl
  | cons c s ih =>
    intro rest
    rw [show escStr (c :: s) = escC c ++ escStr s from rfl, List.append_assoc]
    by_cases h1 : c = '"'
    · subst h1
      rw [show escC '"' = ['\\', '"'] from rfl]
      simp only [List.cons_append, List.nil_append]
      show Option.map (fun p => (('"' : Char) :: p.1, p.2))
        (parseStringBody (escStr s ++ '"' :: rest)) = some ('"' :: s, rest)
      rw [ih rest]
      rfl
    · by_cases h2 : c = '\\'
      · subst h2
        rw [show escC '\\' = ['\\', '\\'] from rfl]
        simp only [List.cons_append, List.nil_append]
        show Option.map (fun p => (('\\' : Char) :: p.1, p.2))
          (parseStringBody (escStr s ++ '"' :: rest)) = some ('\\' :: s, rest)
        rw [ih rest]
        rfl
      · by_cases h3 : c = '\n'
        · subst h3
          rw [show escC '\n' = ['\\', 'n'] from rfl]
          simp only [List.cons_append, List.nil_append]
          show Option.map (fun p => (('\n' : Char) :: p.1, p.2))
            (parseStringBody (escStr s ++ '"' :: rest)) = some ('\n' :: s, rest)
          rw [ih rest]
          rfl
        · by_cases h4 : c = '\t'
          · subst h4
            rw [show escC '\t' = ['\\', 't'] from rfl]
            simp only [List.cons_append, List.nil_append]
            show Option.map (fun p => (('\t' : Char) :: p.1, p.2))
              (parseStringBody (escStr s ++ '"' :: rest)) = some ('\t' :: s, rest)
            rw [ih rest]
            rfl
          · by_cases h5 : c = '\r'
            · subst h5
              rw [show escC '\r' = ['\\', 'r'] from rfl]
              simp only [List.cons_append, List.nil_append]
              show Option.map (fun p => (('\r' : Char) :: p.1, p.2))
                (parseStringBody (escStr s ++ '"' :: rest)) = some ('\r' :: s, rest)
              rw [ih rest]
              rfl
            · by_cases h6 : c = '\x08'
              · subst h6
                rw [show escC '\x08' = ['\\', 'b'] from rfl]
                simp only [List.cons_append, List.nil_append]
                show Option.map (fun p => (('\x08' : Char) :: p.1, p.2))
                  (parseStringBody (escStr s ++ '"' :: rest)) = some ('\x08' :: s, rest)
                rw [ih rest]
                rfl
              · by_cases h7 : c = '\x0c'
                · subst h7
                  rw [show escC '\x0c' = ['\\', 'f'] from rfl]
                  simp only [List.cons_append, List.nil_append]
                  show Option.map (fun p => (('\x0c' : Char) :: p.1, p.2))
                    (parseStringBody (escStr s ++ '"' :: rest)) = some ('\x0c' :: s, rest)
                  rw [ih rest]
                  rfl
                · by_cases h8 : c.toNat < 32
                  · rw [show escC c =
                        ['\\', 'u', '0', '0', hexDigitC (c.toNat / 16), hexDigitC (c.toNat % 16)]
                      from by
                        rw [escC]
                        simp only [if_neg h1, if_neg h2, if_neg h3, if_neg h4, if_neg h5,
                          if_neg h6, if_neg h7, if_pos h8]]
                    simp only [List.cons_append, List.nil_append]
                    rw [parseStringBody_u00 _ _ (c.toNat / 16) (c.toNat % 16) _
                      (hexVal_hexDigitC _ (by omega)) (hexVal_hexDigitC _ (by omega))
                      (by omega)]
                    have hdm : c.toNat / 16 * 16 + c.toNat % 16 = c.toNat := by omega
                    rw [hdm, Char.ofNat_toNat, ih rest]
                    rfl
                  · rw [show escC c = [c] from by
                        rw [escC]
                        simp only [if_neg h1, if_neg h2, if_neg h3, if_neg h4, if_neg h5,
                          if_neg h6, if_neg h7, if_neg h8]]
                    simp only [List.cons_append, List.nil_append]
                    rw [parseStringBody.eq_def]
                    split
                    · rename_i heq; exact absurd heq (by simp)
                    · rename_i t' heq
                      exfalso
                      injection heq with hc _
                      exact h1 hc
                    · rename_i e1 e2 e3 e4 t' heq
                      exfalso
                      injection heq with hc _
                      exact h2 hc
                    · rename_i c' t' heq
                      exfalso
                      injection heq with hc _
                      exact h2 hc
                    · rename_i z hd tl hne1 hne2 hne3 heq
                      injection heq with hc ht
                      subst hc
                      subst ht
                      rw [if_neg (by omega : ¬ c.toNat < 32), ih rest]
                      rfl

theorem insField_append (k : List Char) (v : J) : ∀ acc : List (List Char × J),
    k ∉ acc.map Prod.fst → insField k v acc = acc ++ [(k, v)] := by
  intro acc
  induction acc with
  | nil => intro _; rfl
  | cons f fs ih =>
    intro h
    obtain ⟨k', v'⟩ := f
    simp only [List.map_cons, List.mem_cons] at h
    push_neg at h
    rw [insField, if_neg h.1, ih h.2]
    rfl

theorem insField_keys (k : List Char) (v : J) : ∀ acc : List (List Char × J),
    (insField k v acc).map Prod.fst =
      if k ∈ acc.map Prod.fst then acc.map Prod.fst else acc.map Prod.fst ++ [k] := by
  intro acc
  induction acc with
  | nil => rfl
  | cons f fs ih =>
    obtain ⟨k', v'⟩ := f
    by_cases hk : k = k'
    · subst hk
      rw [insField, if_pos rfl]
      simp
    · rw [insField, if_neg hk]
      simp only [List.map_cons, List.mem_cons]
      rw [ih]
      by_cases hmem : k ∈ fs.map Prod.fst
      · rw [if_pos hmem, if_pos (Or.inr hmem)]
      · rw [if_neg hmem, if_neg (by simp [hk, hmem])]
        rfl

theorem insField_nodup (k : List Char) (v : J) (acc : List (List Char × J))
    (h : (acc.map Prod.fst).Nodup) : ((insField k v acc).map Prod.fst).Nodup := by
  rw [insField_keys]
  by_cases hmem : k ∈ acc.map Prod.fst
  · rwa [if_pos hmem]
  · rw [if_neg hmem]
    simp only [List.nodup_append, List.nodup_cons]
    exact ⟨h, by simp, by simpa using hmem⟩

theorem insField_mem (k : List Char) (v : J) : ∀ (acc : List (List Char × J)) kv,
    kv ∈ insField k v acc → kv.2 = v ∨ kv ∈ acc := by
  intro acc
  induction acc with
  | nil =>
    intro kv h
    simp only [insField, List.mem_singleton] at h
    exact Or.inl (by rw [h])
  | cons f fs ih =>
    intro kv h
    obtain ⟨k', v'⟩ := f
    by_cases hk : k = k'
    · subst hk
      rw [insField, if_pos rfl] at h
      rcases List.mem_cons.mp h with rfl | h
      · exact Or.inl rfl
      · exact Or.inr (List.mem_cons_of_mem _ h)
    · rw [insField, if_neg hk] at h
      rcases List.mem_cons.mp h with rfl | h
      · exact Or.inr (List.mem_cons_self _ _)
      · rcases ih kv h with h' | h'
        · exact Or.inl h'
        · exact Or.inr (List.mem_cons_of_mem _ h')

theorem insField_wf (k : List Char) (v : J) (acc : List (List Char × J))
    (hacc : ∀ kv ∈ acc, WfJ kv.2) (hv : WfJ v) :
    ∀ kv ∈ insField k v acc, WfJ kv.2 := by
  intro kv hkv
  rcases insField_mem k v acc kv hkv with h | h
  · rw [h]; exact hv
  · exact hacc kv h

theorem parse_wf_fuel : ∀ fuel : Nat,
    (∀ s v r, parseVal fuel s = some (v, r) → WfJ v) ∧
    (∀ s vs r, parseElemsRest fuel s = some (vs, r) → ∀ x ∈ vs, WfJ x) ∧
    (∀ acc s fs r, parseOneField fuel acc s = some (fs, r) →
      (acc.map Prod.fst).Nodup → (∀ kv ∈ acc, WfJ kv.2) →
      (fs.map Prod.fst).Nodup ∧ ∀ kv ∈ fs, WfJ kv.2) ∧
    (∀ acc s fs r, parseFieldsRest fuel acc s = some (fs, r) →
      (acc.map Prod.fst).Nodup → (∀ kv ∈ acc, WfJ kv.2) →
      (fs.map Prod.fst).Nodup ∧ ∀ kv ∈ fs, WfJ kv.2) := by
  intro fuel
  induction fuel with
  | zero =>
    refine ⟨fun s v r h => ?_, fun s vs r h => ?_, fun acc s fs r h => ?_, fun acc s fs r h => ?_⟩ <;>
      simp [parseVal, parseElemsRest, parseOneField, parseFieldsRest] at h
  | succ fuel ih =>
    obtain ⟨ihV, ihE, ihO, ihF⟩ := ih
    refine ⟨fun s v r h => ?_, fun s vs r h => ?_, fun acc s fs r h => ?_, fun acc s fs r h => ?_⟩
    · -- parseVal
      rw [parseVal] at h
      split at h
      · simp only [Option.some_inj, Prod.mk.injEq] at h
        rw [← h.1]
        exact WfJ.null
      · simp only [Option.some_inj, Prod.mk.injEq] at h
        rw [← h.1]
        exact WfJ.bool _
      · simp only [Option.some_inj, Prod.mk.injEq] at h
        rw [← h.1]
        exact WfJ.bool _
      · rename_i t _
        cases hp : parseStringBody t with
        | none => rw [hp] at h; simp at h
        | some p =>
          rw [hp] at h
          simp only [Option.map_some', Option.some_inj, Prod.mk.injEq] at h
          rw [← h.1]
          exact WfJ.str _
      · rename_i t _
        dsimp only at h
        split at h
        · simp only [Option.some_inj, Prod.mk.injEq] at h
          rw [← h.1]
          exact WfJ.arr _ (by simp)
        · cases hp : parseVal fuel (skipWs t) with
          | none => rw [hp] at h; simp at h
          | some p =>
            rw [hp] at h
            simp only [Option.some_bind] at h
            cases hq : parseElemsRest fuel p.2 with
            | none => rw [hq] at h; simp at h
            | some q =>
              rw [hq] at h
              simp only [Option.map_some', Option.some_inj, Prod.mk.injEq] at h
              rw [← h.1]
              refine WfJ.arr _ ?_
              intro x hx
              rcases List.mem_cons.mp hx with rfl | hx
              · exact ihV _ _ _ hp
              · exact ihE _ _ _ hq x hx
      · rename_i t _
        dsimp only at h
        split at h
        · simp only [Option.some_inj, Prod.mk.injEq] at h
          rw [← h.1]
          exact WfJ.obj _ (by simp) (by simp)
        · cases hq : parseOneField fuel [] (skipWs t) with
          | none => rw [hq] at h; simp at h
          | some q =>
            rw [hq] at h
            simp only [Option.map_some', Option.some_inj, Prod.mk.injEq] at h
            rw [← h.1]
            have := ihO _ _ _ _ hq (by simp) (by simp)
            exact WfJ.obj _ this.1 this.2
      · cases hp : parseIntTok (skipWs s) with
        | none => rw [hp] at h; simp at h
        | some p =>
          rw [hp] at h
          simp only [Option.map_some', Option.some_inj, Prod.mk.injEq] at h
          rw [← h.1]
          exact WfJ.int _
    · -- parseElemsRest
      rw [parseElemsRest] at h
      split at h
      · simp only [Option.some_inj, Prod.mk.injEq] at h
        rw [← h.1]
        simp
      · split at h
        · cases hp : parseVal fuel (skipWs s).tail with
          | none => rw [hp] at h; simp at h
          | some p =>
            rw [hp] at h
            simp only [Option.some_bind] at h
            cases hq : parseElemsRest fuel p.2 with
            | none => rw [hq] at h; simp at h
            | some q =>
              rw [hq] at h
              simp only [Option.map_some', Option.some_inj, Prod.mk.injEq] at h
              rw [← h.1]
              intro x hx
              rcases List.mem_cons.mp hx with rfl | hx
              · exact ihV _ _ _ hp
              · exact ihE _ _ _ hq x hx
        · simp at h
    · -- parseOneField
      intro hnd hwf
      rw [parseOneField] at h
      split at h
      · cases hk : parseStringBody s.tail with
        | none => rw [hk] at h; simp at h
        | some kp =>
          rw [hk] at h
          simp only [Option.some_bind] at h
          split at h
          · cases hv : parseVal fuel (skipWs kp.2).tail with
            | none => rw [hv] at h; simp at h
            | some vp =>
              rw [hv] at h
              simp only [Option.some_bind] at h
              exact ihF _ _ _ _ h (insField_nodup _ _ _ hnd)
                (insField_wf _ _ _ hwf (ihV _ _ _ hv))
          · simp at h
      · simp at h
    · -- parseFieldsRest
      intro hnd hwf
      rw [parseFieldsRest] at h
      split at h
      · simp only [Option.some_inj, Prod.mk.injEq] at h
        rw [← h.1]
        exact ⟨hnd, hwf⟩
      · split at h
        · exact ihO _ _ _ _ h hnd hwf
        · simp at h

theorem parseVal_congr_ws (fuel : Nat) (s1 s2 : List Char) (h : skipWs s1 = skipWs s2) :
    parseVal fuel s1 = parseVal fuel s2 := by
  cases fuel with
  | zero => simp [parseVal]
  | succ fuel => rw [parseVal, parseVal, h]

theorem skipWs_indent (m : Nat) (z : List Char) :
    skipWs ('\n' :: (spacesC m ++ z)) = skipWs z := by
  rw [skipWs_ws_cons _ _ (by decide), skipWs_spaces]

theorem fneed_pos (v : J) : 1 ≤ fneed v := by
  cases v <;> simp [fneed] <;> omega

theorem printInt_head (n : Int) :
    ∃ c t, printInt n = c :: t ∧ (isDigitC c = true ∨ c = '-') := by
  by_cases h : n < 0
  · exact ⟨'-', natDigits n.natAbs, by rw [printInt, if_pos h], Or.inr rfl⟩
  · obtain ⟨c, t, hct, hd, _⟩ := natDigits_head n.natAbs
    exact ⟨c, t, by rw [printInt, if_neg h, hct], Or.inl hd⟩

theorem printJ_head (lvl : Nat) (v : J) : ∃ c t, printJ lvl v = c :: t ∧
    isWsC c = false ∧ c ≠ ']' ∧ c ≠ '\x7d' := by
  cases v with
  | jnull => exact ⟨'n', _, rfl, by decide, by decide, by decide⟩
  | jbool b =>
    cases b
    · refine ⟨'f', _, rfl, ?_, ?_, ?_⟩ <;> decide
    · refine ⟨'t', _, rfl, ?_, ?_, ?_⟩ <;> decide
  | jint n =>
    obtain ⟨c, t, hct, hc⟩ := printInt_head n
    refine ⟨c, t, by rw [show printJ lvl (J.jint n) = printInt n from rfl, hct], ?_, ?_, ?_⟩
    · rcases hc with hc | hc
      · exact isDigitC_not_ws c hc
      · rw [hc]; decide
    · rcases hc with hc | hc
      · intro he; rw [he] at hc; exact absurd hc (by decide)
      · rw [hc]; decide
    · rcases hc with hc | hc
      · intro he; rw [he] at hc; exact absurd hc (by decide)
      · rw [hc]; decide
  | jstr s => exact ⟨'"', _, rfl, by decide, by decide, by decide⟩
  | jarr xs => cases xs with
    | nil => exact ⟨'[', _, rfl, by decide, by decide, by decide⟩
    | cons x t => exact ⟨'[', _, rfl, by decide, by decide, by decide⟩
  | jobj fs => cases fs with
    | nil => exact ⟨'\x7b', _, rfl, by decide, by decide, by decide⟩
    | cons f t => exact ⟨'\x7b', _, rfl, by decide, by decide, by decide⟩

theorem elems_head_safe (lvl : Nat) (xs : List J) (z : List Char) :
    ∀ c t, printElemsRest lvl xs ++ '\n' :: z = c :: t → isDigitC c = false := by
  intro c t h
  cases xs with
  | nil =>
    simp only [printElemsRest, List.nil_append] at h
    injection h with h1 _
    rw [← h1]
    decide
  | cons y ys =>
    simp only [printElemsRest, List.cons_append] at h
    injection h with h1 _
    rw [← h1]
    decide

theorem fields_head_safe (lvl : Nat) (fs : List (List Char × J)) (z : List Char) :
    ∀ c t, printFieldsRest lvl fs ++ '\n' :: z = c :: t → isDigitC c = false := by
  intro c t h
  cases fs with
  | nil =>
    simp only [printFieldsRest, List.nil_append] at h
    injection h with h1 _
    rw [← h1]
    decide
  | cons f ffs =>
    simp only [printFieldsRest, List.cons_append] at h
    injection h with h1 _
    rw [← h1]
    decide

theorem fneed_le_print (v : J) (hwf : WfJ v) : ∀ lvl, fneed v ≤ (printJ lvl v).length + 1 := by
  induction hwf with
  | null => intro lvl; simp [fneed]
  | bool b => intro lvl; simp [fneed]
  | int n => intro lvl; simp [fneed]
  | str s => intro lvl; simp [fneed]
  | arr xs h ih =>
    intro lvl
    have hER : ∀ (ys : List J), (∀ y ∈ ys, ∀ l, fneed y ≤ (printJ l y).length + 1) →
        ∀ l, fneedL ys ≤ (printElemsRest l ys).length := by
      intro ys
      induction ys with
      | nil => intro _ _; simp [fneedL, printElemsRest]
      | cons y t iht =>
        intro hmem l
        have h1 := hmem y (List.mem_cons_self _ _) l
        have h2 := iht (fun y' hy' => hmem y' (List.mem_cons_of_mem _ hy')) l
        simp only [fneedL, printElemsRest, List.length_cons, List.length_append]
        omega
    cases xs with
    | nil => simp [fneed, fneedL, printJ, strL]
    | cons x t =>
      have h1 := ih x (List.mem_cons_self _ _) (lvl + 1)
      have h2 := hER t (fun y hy => ih y (List.mem_cons_of_mem _ hy)) (lvl + 1)
      simp only [fneed, fneedL, printJ, List.length_cons, List.length_append]
      omega
  | obj fs hnd h ih =>
    intro lvl
    have hFR : ∀ (gs : List (List Char × J)),
        (∀ g ∈ gs, ∀ l, fneed g.2 ≤ (printJ l g.2).length + 1) →
        ∀ l, fneedF gs ≤ (printFieldsRest l gs).length := by
      intro gs
      induction gs with
      | nil => intro _ _; simp [fneedF, printFieldsRest]
      | cons g t iht =>
        intro hmem l
        obtain ⟨k, v'⟩ := g
        have h1 : fneed v' ≤ (printJ l v').length + 1 := hmem (k, v') (List.mem_cons_self _ _) l
        have h2 := iht (fun g' hg' => hmem g' (List.mem_cons_of_mem _ hg')) l
        simp only [fneedF, printFieldsRest, printField, List.length_cons, List.length_append]
        omega
    cases fs with
    | nil => simp [fneed, fneedF, printJ, strL]
    | cons g t =>
      obtain ⟨k, v'⟩ := g
      have h1 : fneed v' ≤ (printJ (lvl + 1) v').length + 1 :=
        ih (k, v') (List.mem_cons_self _ _) (lvl + 1)
      have h2 := hFR t (fun g' hg' => ih g' (List.mem_cons_of_mem _ hg')) (lvl + 1)
      simp only [fneed, fneedF, printJ, printField, List.length_cons, List.length_append]
      omega

theorem rt_all : ∀ N : Nat,
    (∀ v, fneed v ≤ N → WfJ v → ∀ lvl fuel rest, fneed v ≤ fuel →
      (∀ c t, rest = c :: t → isDigitC c = false) →
      parseVal fuel (printJ lvl v ++ rest) = some (v, rest)) ∧
    (∀ xs, fneedL xs ≤ N → (∀ x ∈ xs, WfJ x) → ∀ lvl m fuel rest, 1 + fneedL xs ≤ fuel →
      parseElemsRest fuel (printElemsRest lvl xs ++ '\n' :: (spacesC m ++ ']' :: rest)) =
        some (xs, rest)) ∧
    (∀ k v fs, fneedF ((k, v) :: fs) ≤ N → WfJ v → (∀ kv ∈ fs, WfJ kv.2) →
      ((((k, v) :: fs).map Prod.fst).Nodup) →
      ∀ lvl m fuel acc rest, fneedF ((k, v) :: fs) ≤ fuel →
      (∀ key ∈ ((k, v) :: fs).map Prod.fst, key ∉ acc.map Prod.fst) →
      parseOneField fuel acc
        (printField lvl (k, v) ++
          (printFieldsRest lvl fs ++ '\n' :: (spacesC m ++ '\x7d' :: rest))) =
        some (acc ++ (k, v) :: fs, rest)) ∧
    (∀ fs, fneedF fs ≤ N → (∀ kv ∈ fs, WfJ kv.2) → ((fs.map Prod.fst).Nodup) →
      ∀ lvl m fuel acc rest, 1 + fneedF fs ≤ fuel →
      (∀ key ∈ fs.map Prod.fst, key ∉ acc.map Prod.fst) →
      parseFieldsRest fuel acc
        (printFieldsRest lvl fs ++ '\n' :: (spacesC m ++ '\x7d' :: rest)) =
        some (acc ++ fs, rest)) := by
  intro N
  induction N using Nat.strong_induction_on with
  | _ N ih =>
  have hO : ∀ k v fs, fneedF ((k, v) :: fs) ≤ N → WfJ v → (∀ kv ∈ fs, WfJ kv.2) →
      ((((k, v) :: fs).map Prod.fst).Nodup) →
      ∀ lvl m fuel acc rest, fneedF ((k, v) :: fs) ≤ fuel →
      (∀ key ∈ ((k, v) :: fs).map Prod.fst, key ∉ acc.map Prod.fst) →
      parseOneField fuel acc
        (printField lvl (k, v) ++
          (printFieldsRest lvl fs ++ '\n' :: (spacesC m ++ '\x7d' :: rest))) =
        some (acc ++ (k, v) :: fs, rest) := by
    intro k v fs hN hv hfs hnd lvl m fuel acc rest hfuel hkeys
    have hvpos := fneed_pos v
    simp only [fneedF] at hN hfuel
    obtain ⟨f, rfl⟩ : ∃ f, fuel = f + 1 := ⟨fuel - 1, by omega⟩
    rw [show printField lvl (k, v) ++
        (printFieldsRest lvl fs ++ '\n' :: (spacesC m ++ '\x7d' :: rest)) =
        '"' :: (escStr k ++ '"' :: (':' :: ' ' :: (printJ lvl v ++
          (printFieldsRest lvl fs ++ '\n' :: (spacesC m ++ '\x7d' :: rest))))) from by
      show ('"' :: (escStr k ++ '"' :: ':' :: ' ' :: printJ lvl v)) ++ _ = _
      simp [List.append_assoc]]
    rw [parseOneField]
    simp only [List.head?_cons, List.tail_cons]
    rw [if_pos trivial]
    rw [parseStringBody_esc k (':' :: ' ' :: (printJ lvl v ++
      (printFieldsRest lvl fs ++ '\n' :: (spacesC m ++ '\x7d' :: rest))))]
    simp only [Option.some_bind]
    rw [skipWs_cons_of_not _ _ (by decide)]
    simp only [List.head?_cons, List.tail_cons]
    rw [if_pos trivial]
    have hlt : fneed v < N := by omega
    have hv' : parseVal f (' ' :: (printJ lvl v ++
        (printFieldsRest lvl fs ++ '\n' :: (spacesC m ++ '\x7d' :: rest)))) =
        some (v, printFieldsRest lvl fs ++ '\n' :: (spacesC m ++ '\x7d' :: rest)) := by
      rw [parseVal_congr_ws f _ (printJ lvl v ++
        (printFieldsRest lvl fs ++ '\n' :: (spacesC m ++ '\x7d' :: rest)))
        (skipWs_ws_cons _ _ (by decide))]
      exact (ih (fneed v) hlt).1 v le_rfl hv lvl f _ (by omega)
        (fields_head_safe lvl fs _)
    rw [hv']
    simp only [Option.some_bind]
    rw [insField_append k v acc (hkeys k (by simp))]
    have hndt : (fs.map Prod.fst).Nodup := by
      have := hnd
      simp only [List.map_cons, List.nodup_cons] at this
      exact this.2
    have hknotfs : k ∉ fs.map Prod.fst := by
      have := hnd
      simp only [List.map_cons, List.nodup_cons] at this
      exact this.1
    have hkeys' : ∀ key ∈ fs.map Prod.fst, key ∉ (acc ++ [(k, v)]).map Prod.fst := by
      intro key hkey
      simp only [List.map_append, List.mem_append, List.map_cons, List.map_nil,
        List.mem_singleton]
      push_neg
      refine ⟨hkeys key (by simp [hkey]), ?_⟩
      intro he
      rw [he] at hkey
      exact hknotfs hkey
    have hlt2 : fneedF fs < N := by omega
    rw [(ih (fneedF fs) hlt2).2.2.2 fs le_rfl hfs hndt lvl m f (acc ++ [(k, v)]) rest
      (by omega) hkeys']
    simp
  have hE : ∀ xs, fneedL xs ≤ N → (∀ x ∈ xs, WfJ x) →
      ∀ lvl m fuel rest, 1 + fneedL xs ≤ fuel →
      parseElemsRest fuel (printElemsRest lvl xs ++ '\n' :: (spacesC m ++ ']' :: rest)) =
        some (xs, rest) := by
    intro xs hN hwf lvl m fuel rest hfuel
    obtain ⟨f, rfl⟩ : ∃ f, fuel = f + 1 := ⟨fuel - 1, by omega⟩
    cases xs with
    | nil =>
      simp only [printElemsRest, List.nil_append]
      rw [parseElemsRest]
      have hsk : skipWs ('\n' :: (spacesC m ++ ']' :: rest)) = ']' :: rest := by
        rw [skipWs_indent, skipWs_cons_of_not _ _ (by decide)]
      rw [hsk]
      simp only [List.head?_cons, List.tail_cons]
      rw [if_pos trivial]
    | cons y t =>
      simp only [fneedL] at hN hfuel
      have hypos := fneed_pos y
      simp only [printElemsRest, List.cons_append, List.append_assoc]
      rw [parseElemsRest]
      rw [skipWs_cons_of_not _ _ (by decide)]
      simp only [List.head?_cons, List.tail_cons]
      rw [if_neg (by decide), if_pos trivial]
      have hv' : parseVal f ('\n' :: (spacesC (2 * lvl) ++ (printJ lvl y ++
          (printElemsRest lvl t ++ '\n' :: (spacesC m ++ ']' :: rest))))) =
          some (y, printElemsRest lvl t ++ '\n' :: (spacesC m ++ ']' :: rest)) := by
        rw [parseVal_congr_ws f _ (printJ lvl y ++
          (printElemsRest lvl t ++ '\n' :: (spacesC m ++ ']' :: rest))) (skipWs_indent _ _)]
        exact (ih (fneed y) (by omega)).1 y le_rfl (hwf y (List.mem_cons_self _ _)) lvl f _
          (by omega) (elems_head_safe lvl t _)
      rw [hv']
      simp only [Option.some_bind]
      rw [(ih (fneedL t) (by omega)).2.1 t le_rfl
        (fun x hx => hwf x (List.mem_cons_of_mem _ hx)) lvl m f rest (by omega)]
      rfl
  have hF : ∀ fs, fneedF fs ≤ N → (∀ kv ∈ fs, WfJ kv.2) → ((fs.map Prod.fst).Nodup) →
      ∀ lvl m fuel acc rest, 1 + fneedF fs ≤ fuel →
      (∀ key ∈ fs.map Prod.fst, key ∉ acc.map Prod.fst) →
      parseFieldsRest fuel acc
        (printFieldsRest lvl fs ++ '\n' :: (spacesC m ++ '\x7d' :: rest)) =
        some (acc ++ fs, rest) := by
    intro fs hN hwf hnd lvl m fuel acc rest hfuel hkeys
    obtain ⟨f, rfl⟩ : ∃ f, fuel = f + 1 := ⟨fuel - 1, by omega⟩
    cases fs with
    | nil =>
      simp only [printFieldsRest, List.nil_append]
      rw [parseFieldsRest]
      have hsk : skipWs ('\n' :: (spacesC m ++ '\x7d' :: rest)) = '\x7d' :: rest := by
        rw [skipWs_indent, skipWs_cons_of_not _ _ (by decide)]
      rw [hsk]
      simp only [List.head?_cons, List.tail_cons]
      rw [if_pos trivial]
      simp
    | cons g t =>
      obtain ⟨k2, v2⟩ := g
      simp only [printFieldsRest, List.cons_append, List.append_assoc]
      rw [parseFieldsRest]
      rw [skipWs_cons_of_not _ _ (by decide)]
      simp only [List.head?_cons, List.tail_cons]
      rw [if_neg (by decide), if_pos trivial]
      have hpf : ∀ z : List Char, printField lvl (k2, v2) ++ z =
          '"' :: ((escStr k2 ++ '"' :: ':' :: ' ' :: printJ lvl v2) ++ z) := fun z => rfl
      have hsk : skipWs ('\n' :: (spacesC (2 * lvl) ++ (printField lvl (k2, v2) ++
          (printFieldsRest lvl t ++ '\n' :: (spacesC m ++ '\x7d' :: rest))))) =
          printField lvl (k2, v2) ++
            (printFieldsRest lvl t ++ '\n' :: (spacesC m ++ '\x7d' :: rest)) := by
        rw [skipWs_indent, hpf, skipWs_cons_of_not _ _ (by decide)]
      rw [hsk]
      exact hO k2 v2 t hN
        (by exact hwf (k2, v2) (List.mem_cons_self _ _))
        (fun kv hkv => hwf kv (List.mem_cons_of_mem _ hkv)) hnd lvl m f acc rest
        (by simp only [fneedF] at hfuel ⊢; omega) hkeys
  have hV : ∀ v, fneed v ≤ N → WfJ v → ∀ lvl fuel rest, fneed v ≤ fuel →
      (∀ c t, rest = c :: t → isDigitC c = false) →
      parseVal fuel (printJ lvl v ++ rest) = some (v, rest) := by
    intro v hN hwf lvl fuel rest hfuel hrest
    obtain ⟨f, rfl⟩ : ∃ f, fuel = f + 1 :=
      ⟨fuel - 1, by have := fneed_pos v; omega⟩
    cases hwf with
    | null => rfl
    | bool b => cases b with
      | true => rfl
      | false => rfl
    | int n =>
      rw [show printJ lvl (J.jint n) ++ rest = printInt n ++ rest from rfl]
      obtain ⟨c, t0, hct, hc⟩ := printInt_head n
      have hcws : isWsC c = false := by
        rcases hc with hc | hc
        · exact isDigitC_not_ws c hc
        · rw [hc]; decide
      rw [hct, List.cons_append, parseVal, skipWs_cons_of_not _ _ hcws]
      split
      · rename_i t' heq
        exfalso; injection heq with h1 _; rw [h1] at hc; exact absurd hc (by decide)
      · rename_i t' heq
        exfalso; injection heq with h1 _; rw [h1] at hc; exact absurd hc (by decide)
      · rename_i t' heq
        exfalso; injection heq with h1 _; rw [h1] at hc; exact absurd hc (by decide)
      · rename_i t' heq
        exfalso; injection heq with h1 _; rw [h1] at hc; exact absurd hc (by decide)
      · rename_i t' heq
        exfalso; injection heq with h1 _; rw [h1] at hc; exact absurd hc (by decide)
      · rename_i t' heq
        exfalso; injection heq with h1 _; rw [h1] at hc; exact absurd hc (by decide)
      · rw [← List.cons_append, ← hct, parseIntTok_rt n rest hrest]
        rfl
    | str s =>
      rw [show printJ lvl (J.jstr s) ++ rest = '"' :: (escStr s ++ '"' :: rest) from by
        show ('"' :: (escStr s ++ ['"'])) ++ rest = _
        simp [List.append_assoc]]
      rw [parseVal, skipWs_cons_of_not _ _ (by decide)]
      show Option.map (fun p => (J.jstr p.1, p.2))
        (parseStringBody (escStr s ++ '"' :: rest)) = some (J.jstr s, rest)
      rw [parseStringBody_esc]
      rfl
    | arr xs helems =>
      cases xs with
      | nil => rfl
      | cons x t =>
        simp only [fneed, fneedL] at hN hfuel
        have hxpos := fneed_pos x
        rw [show printJ lvl (J.jarr (x :: t)) ++ rest =
            '[' :: ('\n' :: (spacesC (2 * (lvl + 1)) ++ (printJ (lvl + 1) x ++
              (printElemsRest (lvl + 1) t ++
                '\n' :: (spacesC (2 * lvl) ++ ']' :: rest))))) from by
          show ('[' :: '\n' :: (spacesC (2 * (lvl + 1)) ++ printJ (lvl + 1) x ++
            printElemsRest (lvl + 1) t ++ '\n' :: (spacesC (2 * lvl) ++ [']']))) ++ rest = _
          simp [List.append_assoc]]
        show (if (skipWs ('\n' :: (spacesC (2 * (lvl + 1)) ++ (printJ (lvl + 1) x ++
            (printElemsRest (lvl + 1) t ++
              '\n' :: (spacesC (2 * lvl) ++ ']' :: rest)))))).head? = some ']'
          then some (J.jarr [], (skipWs ('\n' :: (spacesC (2 * (lvl + 1)) ++
            (printJ (lvl + 1) x ++ (printElemsRest (lvl + 1) t ++
              '\n' :: (spacesC (2 * lvl) ++ ']' :: rest)))))).tail)
          else (parseVal f (skipWs ('\n' :: (spacesC (2 * (lvl + 1)) ++
            (printJ (lvl + 1) x ++ (printElemsRest (lvl + 1) t ++
              '\n' :: (spacesC (2 * lvl) ++ ']' :: rest))))))).bind fun p =>
            Option.map (fun q => (J.jarr (p.1 :: q.1), q.2)) (parseElemsRest f p.2)) =
          some (J.jarr (x :: t), rest)
        obtain ⟨c, t0, hct, hcws, hcbr, _⟩ := printJ_head (lvl + 1) x
        have hskip : skipWs ('\n' :: (spacesC (2 * (lvl + 1)) ++ (printJ (lvl + 1) x ++
            (printElemsRest (lvl + 1) t ++ '\n' :: (spacesC (2 * lvl) ++ ']' :: rest))))) =
            printJ (lvl + 1) x ++
              (printElemsRest (lvl + 1) t ++ '\n' :: (spacesC (2 * lvl) ++ ']' :: rest)) := by
          rw [skipWs_indent, hct, List.cons_append, skipWs_cons_of_not _ _ hcws]
        rw [hskip, hct, List.cons_append]
        simp only [List.head?_cons]
        rw [if_neg (by simp [hcbr])]
        rw [← List.cons_append, ← hct]
        rw [(ih (fneed x) (by omega)).1 x le_rfl (helems x (List.mem_cons_self _ _))
          (lvl + 1) f _ (by omega) (elems_head_safe (lvl + 1) t _)]
        simp only [Option.some_bind]
        rw [hE t (by omega) (fun y hy => helems y (List.mem_cons_of_mem _ hy))
          (lvl + 1) (2 * lvl) f rest (by omega)]
        rfl
    | obj fs hnd hvals =>
      cases fs with
      | nil => rfl
      | cons g t =>
        obtain ⟨k2, v2⟩ := g
        simp only [fneed] at hN hfuel
        rw [show printJ lvl (J.jobj ((k2, v2) :: t)) ++ rest =
            '\x7b' :: ('\n' :: (spacesC (2 * (lvl + 1)) ++ (printField (lvl + 1) (k2, v2) ++
              (printFieldsRest (lvl + 1) t ++
                '\n' :: (spacesC (2 * lvl) ++ '\x7d' :: rest))))) from by
          show ('\x7b' :: '\n' :: (spacesC (2 * (lvl + 1)) ++ printField (lvl + 1) (k2, v2) ++
            printFieldsRest (lvl + 1) t ++ '\n' :: (spacesC (2 * lvl) ++ ['\x7d']))) ++ rest = _
          simp [List.append_assoc]]
        show (if (skipWs ('\n' :: (spacesC (2 * (lvl + 1)) ++ (printField (lvl + 1) (k2, v2) ++
            (printFieldsRest (lvl + 1) t ++
              '\n' :: (spacesC (2 * lvl) ++ '\x7d' :: rest)))))).head? = some '\x7d'
          then some (J.jobj [], (skipWs ('\n' :: (spacesC (2 * (lvl + 1)) ++
            (printField (lvl + 1) (k2, v2) ++ (printFieldsRest (lvl + 1) t ++
              '\n' :: (spacesC (2 * lvl) ++ '\x7d' :: rest)))))).tail)
          else Option.map (fun q => (J.jobj q.1, q.2))
            (parseOneField f [] (skipWs ('\n' :: (spacesC (2 * (lvl + 1)) ++
              (printField (lvl + 1) (k2, v2) ++ (printFieldsRest (lvl + 1) t ++
                '\n' :: (spacesC (2 * lvl) ++ '\x7d' :: rest)))))))) =
          some (J.jobj ((k2, v2) :: t), rest)
        have hpf : ∀ z : List Char, printField (lvl + 1) (k2, v2) ++ z =
            '"' :: ((escStr k2 ++ '"' :: ':' :: ' ' :: printJ (lvl + 1) v2) ++ z) :=
          fun z => rfl
        have hskip : skipWs ('\n' :: (spacesC (2 * (lvl + 1)) ++
            (printField (lvl + 1) (k2, v2) ++ (printFieldsRest (lvl + 1) t ++
              '\n' :: (spacesC (2 * lvl) ++ '\x7d' :: rest))))) =
            printField (lvl + 1) (k2, v2) ++ (printFieldsRest (lvl + 1) t ++
              '\n' :: (spacesC (2 * lvl) ++ '\x7d' :: rest)) := by
          rw [skipWs_indent, hpf, skipWs_cons_of_not _ _ (by decide)]
        rw [hskip, hpf]
        simp only [List.head?_cons]
        rw [if_neg (by decide)]
        rw [← hpf]
        rw [hO k2 v2 t (by omega)
          (by exact hvals (k2, v2) (List.mem_cons_self _ _))
          (fun kv hkv => hvals kv (List.mem_cons_of_mem _ hkv)) hnd
          (lvl + 1) (2 * lvl) f [] rest (by omega) (by simp)]
        simp
  exact ⟨hV, hE, hO, hF⟩

theorem parse_wf (s : List Char) (v : J) (h : parse s = some v) : WfJ v := by
  rw [parse] at h
  cases hp : parseVal (s.length + 1) s with
  | none => rw [hp] at h; simp at h
  | some p =>
    rw [hp] at h
    dsimp only at h
    by_cases he : (skipWs p.2).isEmpty
    · rw [if_pos he] at h
      obtain rfl : p.1 = v := Option.some_inj.mp h
      exact (parse_wf_fuel (s.length + 1)).1 s p.1 p.2 hp
    · rw [if_neg he] at h
      simp at h

theorem parse_print (v : J) (hwf : WfJ v) : parse (printJ 0 v) = some v := by
  have hrt := (rt_all (fneed v)).1 v le_rfl hwf 0 ((printJ 0 v).length + 1) []
    (by have := fneed_le_print v hwf 0; omega) (by intro c t h; simp at h)
  rw [List.append_nil] at hrt
  rw [parse, hrt]
  simp [skipWs]

/-- C8: the JSON normalizer is idempotent — for every input string,
normalizing the result of normalization gives the same text as normalizing
once.  On parse failure `norm` is the identity; on success `norm` prints a
parsed (hence duplicate-key-free) value, and re-parsing that canonical
text recovers exactly the same value. -/
theorem norm_idempotent : ∀ s, norm (norm s) = norm s := by
  intro s
  cases h : parse s with
  | none =>
    have h1 : norm s = s := by
      show (match parse s with | some w => printJ 0 w | none => s) = s
      rw [h]
    rw [h1]
    exact h1
  | some v =>
    have h1 : norm s = printJ 0 v := by
      show (match parse s with | some w => printJ 0 w | none => s) = printJ 0 v
      rw [h]
    have h2 : norm (printJ 0 v) = printJ 0 v := by
      show (match parse (printJ 0 v) with | some w => printJ 0 w | none => printJ 0 v) =
        printJ 0 v
      rw [parse_print v (parse_wf s v h)]
    rw [h1, h2]

/-- C9: on every input on which JSON parsing fails (malformed text,
trailing content, the empty string), the normalizer returns exactly the
original input unchanged; `norm` is a total function, so normalization
never raises. -/
theorem norm_parse_fail (s : List Char) (h : parse s = none) : norm s = s := by
  show (match parse s with | some w => printJ 0 w | none => s) = s
  rw [h]

/-- C9 witness: `not json` fails to parse and is returned unchanged. -/
theorem norm_parse_fail_witness :
    parse (strL "not json") = none ∧ norm (strL "not json") = strL "not json" :=
  ⟨rfl, norm_parse_fail _ rfl⟩
